import Mathlib

/-!
Verification of the chess-board FEN parser and board data structure
(`src/chess/board.rs`): the `Board` type with its 64 optional piece slots,
`Board::from_fen`, the coordinate accessors `get_tile` / `set_tile` /
`remove_tile`, and the `Display` rendering.

Rust strings are embedded as `List Char`; `usize` as `Nat`; `Result` as
`Except`; a Rust panic (failed array-bounds check or explicit `panic!`) is
embedded as the `none` case of an outer `Option`, so a function that can
panic returns `Option _` and totality of the source shows up as the result
never being `none`.
-/

/-- Modelled from the spec: the `Piece` enumeration is an external
dependency of this crate (it lives outside `src/chess/board.rs`); the spec
describes it as identifying a chess piece kind. -/
inductive PieceType where
  | Pawn | Knight | Bishop | Rook | Queen | King
deriving DecidableEq

/-- Modelled from the spec: piece color; uppercase FEN letters are one
color, lowercase the other (standard FEN: uppercase = White). -/
inductive PieceColor where
  | White | Black
deriving DecidableEq

/-- Modelled from the spec: a piece is a kind together with a color. -/
structure Piece where
  pieceType : PieceType
  color : PieceColor
deriving DecidableEq

/-- Modelled from the spec: the conversion `char::from(piece)` used by the
`Display` implementation; standard FEN letters, uppercase = White. -/
def Piece.toChar (p : Piece) : Char :=
  match p with
  | ⟨.Pawn, .White⟩ => 'P'
  | ⟨.Knight, .White⟩ => 'N'
  | ⟨.Bishop, .White⟩ => 'B'
  | ⟨.Rook, .White⟩ => 'R'
  | ⟨.Queen, .White⟩ => 'Q'
  | ⟨.King, .White⟩ => 'K'
  | ⟨.Pawn, .Black⟩ => 'p'
  | ⟨.Knight, .Black⟩ => 'n'
  | ⟨.Bishop, .Black⟩ => 'b'
  | ⟨.Rook, .Black⟩ => 'r'
  | ⟨.Queen, .Black⟩ => 'q'
  | ⟨.King, .Black⟩ => 'k'

/-- The twelve piece values, used to state the char-to-piece lookup. -/
def allPieces : List Piece :=
  [⟨.Pawn, .White⟩, ⟨.Knight, .White⟩, ⟨.Bishop, .White⟩, ⟨.Rook, .White⟩,
   ⟨.Queen, .White⟩, ⟨.King, .White⟩, ⟨.Pawn, .Black⟩, ⟨.Knight, .Black⟩,
   ⟨.Bishop, .Black⟩, ⟨.Rook, .Black⟩, ⟨.Queen, .Black⟩, ⟨.King, .Black⟩]

/-- Modelled from the spec: the fallible conversion `Piece::try_from(char)`
(the `Piece` type and its conversions live outside `src/chess/board.rs`):
the standard FEN letter-to-piece mapping `{P,N,B,R,Q,K,p,n,b,r,q,k}`,
uppercase = White, a bidirectional mapping with `Piece.toChar`. Returns
`none` where the Rust conversion returns `Err`. -/
def Piece.tryFrom (c : Char) : Option Piece :=
  allPieces.find? (fun p => p.toChar = c)

/-- Modelled from the spec: the error type `errors::FromFenError` of the
crate (declared outside `src/chess/board.rs`), with the three variants the
parser returns. -/
inductive FromFenError where
  | IncorrectAmountOfSlash
  | IncorrectAmountOfTiles
  | UnknownCharacter
deriving DecidableEq

/-- The board: `tiles: [Option<Piece>; 64]`. The fixed length 64 is kept
as a hypothesis in the theorems rather than baked into the type. -/
structure Board where
  tiles : List (Option Piece)
deriving DecidableEq

/-- Embedding of `c.to_string().parse::<usize>()` for a single character:
it succeeds exactly on the ASCII digits `'0'..='9'`, yielding the digit's
value. -/
def charToNat? (c : Char) : Option Nat :=
  if 48 ≤ c.toNat ∧ c.toNat ≤ 57 then some (c.toNat - 48) else none

/-- Embedding of `fen.split('/')` (and, reused with a different separator,
of splitting the display string into lines): splitting a character list on
a separator, keeping empty segments, as Rust's `str::split` does. -/
def splitOnChar (sep : Char) : List Char → List (List Char)
  | [] => [[]]
  | c :: cs =>
    if c = sep then [] :: splitOnChar sep cs
    else
      match splitOnChar sep cs with
      | [] => [[c]]
      | r :: rs => (c :: r) :: rs

/-- Embedding of the inner character loop of `Board::from_fen` for one row:
for each character, first the overflow check `i >= row_index * 8 + 8`, then
either a digit advancing `i` or a piece written at `tiles[i]`. The indexing
`tiles[i] = Some(piece)` panics in Rust when `i` is out of bounds; that
case is the `none` result. -/
def processChars (rowIndex : Nat) (cs : List Char) (i : Nat)
    (tiles : List (Option Piece)) :
    Option (Except FromFenError (Nat × List (Option Piece))) :=
  match cs with
  | [] => some (Except.ok (i, tiles))
  | c :: rest =>
    if i ≥ rowIndex * 8 + 8 then
      some (Except.error FromFenError.IncorrectAmountOfTiles)
    else
      match charToNat? c with
      | some n => processChars rowIndex rest (i + n) tiles
      | none =>
        match Piece.tryFrom c with
        | none => some (Except.error FromFenError.UnknownCharacter)
        | some p =>
          if i < tiles.length then
            processChars rowIndex rest (i + 1) (tiles.set i (some p))
          else none

/-- Embedding of the outer `for (row_index, row) in rows.iter().enumerate()`
loop of `Board::from_fen`: rows are processed in order with the running
cursor `i` carried across rows. -/
def processRows (rowIndex : Nat) (rows : List (List Char)) (i : Nat)
    (tiles : List (Option Piece)) :
    Option (Except FromFenError (Nat × List (Option Piece))) :=
  match rows with
  | [] => some (Except.ok (i, tiles))
  | r :: rest =>
    match processChars rowIndex r i tiles with
    | none => none
    | some (Except.error e) => some (Except.error e)
    | some (Except.ok (i', tiles')) => processRows (rowIndex + 1) rest i' tiles'

/-- Embedding of `Board::from_fen`. The outer `Option` models panics (its
`none` case); the `Except` models the returned `Result`. -/
def fromFen (fen : List Char) : Option (Except FromFenError Board) :=
  let rows := splitOnChar '/' fen
  if rows.length ≠ 8 then some (Except.error FromFenError.IncorrectAmountOfSlash)
  else
    match processRows 0 rows 0 (List.replicate 64 none) with
    | none => none
    | some (Except.error e) => some (Except.error e)
    | some (Except.ok (i, tiles)) =>
      if i ≠ 64 then some (Except.error FromFenError.IncorrectAmountOfTiles)
      else some (Except.ok ⟨tiles⟩)

/-- Embedding of `Board::get_tile`. The outer `Option` is `none` exactly
when the Rust code panics (`x > 7 || y > 7`); otherwise the occupant of
slot `y*8+x` is returned. -/
def Board.get_tile (b : Board) (x y : Nat) : Option (Option Piece) :=
  if x > 7 ∨ y > 7 then none
  else some (b.tiles.getD (y * 8 + x) none)

/-- Embedding of `Board::set_tile`: write `Some(piece)` at slot `y*8+x`,
panicking (`none`) when `x > 7 || y > 7`. -/
def Board.set_tile (b : Board) (x y : Nat) (piece : Piece) : Option Board :=
  if x > 7 ∨ y > 7 then none
  else some ⟨b.tiles.set (y * 8 + x) (some piece)⟩

/-- Embedding of `Board::remove_tile`: clear slot `y*8+x`, panicking
(`none`) when `x > 7 || y > 7`. -/
def Board.remove_tile (b : Board) (x y : Nat) : Option Board :=
  if x > 7 ∨ y > 7 then none
  else some ⟨b.tiles.set (y * 8 + x) none⟩

/-- Rendering of one slot in the `Display` implementation: the piece's
character if occupied, `'-'` otherwise. -/
def renderTile : Option Piece → Char
  | some p => p.toChar
  | none => '-'

/-- Embedding of the loop body of `impl Display for Board`: walk the tiles
with their index, pushing a newline before every index divisible by 8
except index 0, then the slot's character. -/
def dumpAux : Nat → List (Option Piece) → List Char
  | _, [] => []
  | i, t :: ts =>
    (if i % 8 = 0 ∧ i ≠ 0 then ['\n'] else []) ++ renderTile t :: dumpAux (i + 1) ts

/-- Embedding of `impl Display for Board`: the full textual dump. -/
def Board.dump (b : Board) : List Char :=
  dumpAux 0 b.tiles

instance exceptDecEq {ε α : Type} [DecidableEq ε] [DecidableEq α] :
    DecidableEq (Except ε α) := fun x y =>
  match x, y with
  | .error a, .error b =>
    match decEq a b with
    | isTrue h => isTrue (congrArg Except.error h)
    | isFalse h => isFalse (fun hh => h (Except.error.inj hh))
  | .error _, .ok _ => isFalse (fun hh => Except.noConfusion hh)
  | .ok _, .error _ => isFalse (fun hh => Except.noConfusion hh)
  | .ok a, .ok b =>
    match decEq a b with
    | isTrue h => isTrue (congrArg Except.ok h)
    | isFalse h => isFalse (fun hh => h (Except.ok.inj hh))

/-- A character the parser can consume: an ASCII digit (including `'0'`,
which Rust's `parse::<usize>` accepts) or a recognized piece letter. -/
def validChar (c : Char) : Prop :=
  (charToNat? c).isSome ∨ (Piece.tryFrom c).isSome

instance validChar.instDecidable : DecidablePred validChar := fun c => by
  unfold validChar; infer_instance

/-- Number of board squares a row character stands for: a digit counts that
many empty squares, any other (piece) character one square. -/
def squares (c : Char) : Nat := (charToNat? c).getD 1

/-- Total square count of a row, digits contributing their value and piece
letters contributing one each. -/
def rowSum (cs : List Char) : Nat := (cs.map squares).sum

/-- Rows of eight consecutive slots, used to state what the dump looks
like: the 64 tiles split row-major into 8 chunks of 8. -/
def chunks8 {α : Type} : List α → List (List α)
  | [] => []
  | a :: l => ((a :: l).take 8) :: chunks8 ((a :: l).drop 8)
termination_by l => l.length
decreasing_by simp [List.length_drop]; omega

/-- Joining segments with a separator character, with no leading or
trailing separator: the shape of the newline-joined dump and of the
slash-joined FEN board field. -/
def joinWith (sep : Char) : List (List Char) → List Char
  | [] => []
  | [r] => r
  | r :: r2 :: rs => r ++ sep :: joinWith sep (r2 :: rs)

/-- Tail part of a join: every segment preceded by the separator. -/
def joinTail (sep : Char) : List (List Char) → List Char
  | [] => []
  | r :: rs => sep :: r ++ joinTail sep rs

/-- Row grammar of the spec's input format: a digit '1'..'9' (codepoints
49..57) or one of the 12 piece letters. -/
def grammarChar (c : Char) : Prop :=
  (49 ≤ c.toNat ∧ c.toNat ≤ 57) ∨ (Piece.tryFrom c).isSome

instance grammarChar.instDecidable : DecidablePred grammarChar := fun c => by
  unfold grammarChar
  infer_instance

/-- Expansion of a FEN row descriptor into one character per square: each
digit becomes that many '-' and each piece letter stays itself. This is
the spec-side normal form used to state the round-trip claim. -/
def expandRow : List Char → List Char
  | [] => []
  | c :: cs =>
    match charToNat? c with
    | some n => List.replicate n '-' ++ expandRow cs
    | none => c :: expandRow cs

/-- Run-length compression of a square-per-character line: each maximal
run of '-' is replaced by the digit giving its length. Spec-side
definition for the round-trip claim. -/
def rleAux : List Char → Nat → List Char
  | [], n => if n = 0 then [] else [Nat.digitChar n]
  | c :: cs, n =>
    if c = '-' then rleAux cs (n + 1)
    else (if n = 0 then [] else [Nat.digitChar n]) ++ c :: rleAux cs 0

/-- Run-length encode a line, `rleAux` started with an empty run. -/
def rle (l : List Char) : List Char := rleAux l 0

theorem getD_set_self {α : Type} (l : List α) (n : Nat) (a d : α)
    (h : n < l.length) : (l.set n a).getD n d = a := by
  rw [List.getD_eq_getElem _ _ (by simpa using h)]
  simp [List.getElem_set_self]

theorem getD_set_ne {α : Type} (l : List α) (n m : Nat) (a d : α)
    (h : n ≠ m) : (l.set n a).getD m d = l.getD m d := by
  simp [List.getD, List.getElem?_set_ne h]

theorem getD_replicate {α : Type} (n k : Nat) (a d : α) (h : k < n) :
    (List.replicate n a).getD k d = a := by
  rw [List.getD_eq_getElem _ _ (by simpa using h)]
  simp

theorem processChars_ok_length : ∀ (cs : List Char) (r i : Nat)
    (tiles : List (Option Piece)) (i' : Nat) (t' : List (Option Piece)),
    processChars r cs i tiles = some (Except.ok (i', t')) →
    t'.length = tiles.length := by
  intro cs
  induction cs with
  | nil =>
    intro r i tiles i' t' h
    simp [processChars] at h
    rw [h.2]
  | cons c rest ih =>
    intro r i tiles i' t' h
    simp only [processChars] at h
    split at h
    · simp at h
    · split at h
      · exact ih _ _ _ _ _ h
      · split at h
        · simp at h
        · split at h
          · exact (ih _ _ _ _ _ h).trans (by simp)
          · simp at h

theorem processChars_total : ∀ (cs : List Char) (r i : Nat)
    (tiles : List (Option Piece)), r ≤ 7 → tiles.length = 64 →
    ∃ v, processChars r cs i tiles = some v := by
  intro cs
  induction cs with
  | nil => intro r i tiles _ _; exact ⟨_, rfl⟩
  | cons c rest ih =>
    intro r i tiles hr hlen
    by_cases hcheck : i ≥ r * 8 + 8
    · exact ⟨Except.error FromFenError.IncorrectAmountOfTiles,
        by simp [processChars, hcheck]⟩
    · match hc : charToNat? c with
      | some n =>
        obtain ⟨v, hv⟩ := ih r (i + n) tiles hr hlen
        exact ⟨v, by simp [processChars, hcheck, hc, hv]⟩
      | none =>
        match hp : Piece.tryFrom c with
        | none => exact ⟨Except.error FromFenError.UnknownCharacter,
            by simp [processChars, hcheck, hc, hp]⟩
        | some p =>
          have hi : i < tiles.length := by omega
          obtain ⟨v, hv⟩ := ih r (i + 1) (tiles.set i (some p)) hr (by simp [hlen])
          exact ⟨v, by simp [processChars, hcheck, hc, hp, hi, hv]⟩

theorem processChars_error_ne_slash : ∀ (cs : List Char) (r i : Nat)
    (tiles : List (Option Piece)),
    processChars r cs i tiles
      ≠ some (Except.error FromFenError.IncorrectAmountOfSlash) := by
  intro cs
  induction cs with
  | nil => intro r i tiles h; simp [processChars] at h
  | cons c rest ih =>
    intro r i tiles h
    simp only [processChars] at h
    split at h
    · simp at h
    · split at h
      · exact ih _ _ _ h
      · split at h
        · simp at h
        · split at h
          · exact ih _ _ _ h
          · simp at h

theorem processChars_valid_ne_unknown : ∀ (cs : List Char) (r i : Nat)
    (tiles : List (Option Piece)), (∀ c ∈ cs, validChar c) →
    processChars r cs i tiles
      ≠ some (Except.error FromFenError.UnknownCharacter) := by
  intro cs
  induction cs with
  | nil => intro r i tiles _ h; simp [processChars] at h
  | cons c rest ih =>
    intro r i tiles hv h
    simp only [processChars] at h
    split at h
    · simp at h
    · split at h
      · exact ih _ _ _ (fun d hd => hv d (by simp [hd])) h
      · next hc =>
        split at h
        · next hp =>
          have := hv c (by simp)
          simp [validChar, hc, hp] at this
        · split at h
          · exact ih _ _ _ (fun d hd => hv d (by simp [hd])) h
          · simp at h

theorem processChars_ok_sum : ∀ (cs : List Char) (r i : Nat)
    (tiles : List (Option Piece)) (i' : Nat) (t' : List (Option Piece)),
    processChars r cs i tiles = some (Except.ok (i', t')) →
    i' = i + rowSum cs := by
  intro cs
  induction cs with
  | nil =>
    intro r i tiles i' t' h
    simp [processChars] at h
    simp [rowSum, h.1]
  | cons c rest ih =>
    intro r i tiles i' t' h
    simp only [processChars] at h
    split at h
    · simp at h
    · split at h
      · next n hc =>
        have := ih _ _ _ _ _ h
        simp [rowSum, squares, hc] at this ⊢
        omega
      · next hc =>
        split at h
        · simp at h
        · split at h
          · have := ih _ _ _ _ _ h
            simp [rowSum, squares, hc] at this ⊢
            omega
          · simp at h

theorem processChars_ok_valid : ∀ (cs : List Char) (r i : Nat)
    (tiles : List (Option Piece)) (i' : Nat) (t' : List (Option Piece)),
    processChars r cs i tiles = some (Except.ok (i', t')) →
    ∀ c ∈ cs, validChar c := by
  intro cs
  induction cs with
  | nil => intro r i tiles i' t' _ c hc; simp at hc
  | cons c rest ih =>
    intro r i tiles i' t' h d hd
    simp only [processChars] at h
    split at h
    · simp at h
    · split at h
      · next n hc =>
        rcases List.mem_cons.mp hd with h1 | h1
        · subst h1; exact Or.inl (by simp [hc])
        · exact ih _ _ _ _ _ h d h1
      · split at h
        · simp at h
        · next p hp =>
          split at h
          · rcases List.mem_cons.mp hd with h1 | h1
            · subst h1; exact Or.inr (by simp [hp])
            · exact ih _ _ _ _ _ h d h1
          · simp at h

theorem processRows_ok_length : ∀ (rows : List (List Char)) (r i : Nat)
    (tiles : List (Option Piece)) (i' : Nat) (t' : List (Option Piece)),
    processRows r rows i tiles = some (Except.ok (i', t')) →
    t'.length = tiles.length := by
  intro rows
  induction rows with
  | nil =>
    intro r i tiles i' t' h
    simp [processRows] at h
    rw [h.2]
  | cons row rest ih =>
    intro r i tiles i' t' h
    simp only [processRows] at h
    split at h
    · simp at h
    · simp at h
    · next i2 t2 heq =>
      exact (ih _ _ _ _ _ h).trans (processChars_ok_length _ _ _ _ _ _ heq)

theorem processRows_total : ∀ (rows : List (List Char)) (r i : Nat)
    (tiles : List (Option Piece)), r + rows.length ≤ 8 → tiles.length = 64 →
    ∃ v, processRows r rows i tiles = some v := by
  intro rows
  induction rows with
  | nil => intro r i tiles _ _; exact ⟨_, rfl⟩
  | cons row rest ih =>
    intro r i tiles hr hlen
    have hr7 : r ≤ 7 := by simp at hr; omega
    obtain ⟨v, hv⟩ := processChars_total row r i tiles hr7 hlen
    match v, hv with
    | Except.error e, hv =>
      exact ⟨Except.error e, by simp [processRows, hv]⟩
    | Except.ok (i2, t2), hv =>
      have hlen2 : t2.length = 64 :=
        (processChars_ok_length _ _ _ _ _ _ hv).trans hlen
      obtain ⟨w, hw⟩ := ih (r + 1) i2 t2 (by simp at hr ⊢; omega) hlen2
      exact ⟨w, by simp [processRows, hv, hw]⟩

theorem processRows_error_ne_slash : ∀ (rows : List (List Char)) (r i : Nat)
    (tiles : List (Option Piece)),
    processRows r rows i tiles
      ≠ some (Except.error FromFenError.IncorrectAmountOfSlash) := by
  intro rows
  induction rows with
  | nil => intro r i tiles h; simp [processRows] at h
  | cons row rest ih =>
    intro r i tiles h
    simp only [processRows] at h
    split at h
    · simp at h
    · next e heq =>
      simp at h
      rw [h] at heq
      exact processChars_error_ne_slash _ _ _ _ heq
    · exact ih _ _ _ h

theorem processRows_valid_ne_unknown : ∀ (rows : List (List Char)) (r i : Nat)
    (tiles : List (Option Piece)), (∀ row ∈ rows, ∀ c ∈ row, validChar c) →
    processRows r rows i tiles
      ≠ some (Except.error FromFenError.UnknownCharacter) := by
  intro rows
  induction rows with
  | nil => intro r i tiles _ h; simp [processRows] at h
  | cons row rest ih =>
    intro r i tiles hv h
    simp only [processRows] at h
    split at h
    · simp at h
    · next e heq =>
      simp at h
      rw [h] at heq
      exact processChars_valid_ne_unknown _ _ _ _ (hv row (by simp)) heq
    · exact ih _ _ _ (fun q hq => hv q (by simp [hq])) h

theorem processRows_ok_sum : ∀ (rows : List (List Char)) (r i : Nat)
    (tiles : List (Option Piece)) (i' : Nat) (t' : List (Option Piece)),
    processRows r rows i tiles = some (Except.ok (i', t')) →
    i' = i + (rows.map rowSum).sum := by
  intro rows
  induction rows with
  | nil =>
    intro r i tiles i' t' h
    simp [processRows] at h
    simp [h.1]
  | cons row rest ih =>
    intro r i tiles i' t' h
    simp only [processRows] at h
    split at h
    · simp at h
    · simp at h
    · next i2 t2 heq =>
      have h1 := processChars_ok_sum _ _ _ _ _ _ heq
      have h2 := ih _ _ _ _ _ h
      simp
      omega

theorem processRows_ok_valid : ∀ (rows : List (List Char)) (r i : Nat)
    (tiles : List (Option Piece)) (i' : Nat) (t' : List (Option Piece)),
    processRows r rows i tiles = some (Except.ok (i', t')) →
    ∀ row ∈ rows, ∀ c ∈ row, validChar c := by
  intro rows
  induction rows with
  | nil => intro r i tiles i' t' _ row hrow; simp at hrow
  | cons row rest ih =>
    intro r i tiles i' t' h q hq
    simp only [processRows] at h
    split at h
    · simp at h
    · simp at h
    · next i2 t2 heq =>
      rcases List.mem_cons.mp hq with h1 | h1
      · subst h1; exact processChars_ok_valid _ _ _ _ _ _ heq
      · exact ih _ _ _ _ _ h q h1

theorem sum_const_eight : ∀ (l : List (List Char)),
    (∀ q ∈ l, rowSum q = 8) → (l.map rowSum).sum = 8 * l.length := by
  intro l
  induction l with
  | nil => intro _; simp
  | cons q rest ih =>
    intro h
    have h1 : rowSum q = 8 := h q (by simp)
    have h2 := ih (fun p hp => h p (by simp [hp]))
    simp [h1, h2]
    ring

theorem fromFen_reduce (fen : List Char)
    (h8 : (splitOnChar '/' fen).length = 8) :
    fromFen fen
      = match processRows 0 (splitOnChar '/' fen) 0 (List.replicate 64 none) with
        | none => none
        | some (Except.error e) => some (Except.error e)
        | some (Except.ok (i, tiles)) =>
          if i ≠ 64 then some (Except.error FromFenError.IncorrectAmountOfTiles)
          else some (Except.ok ⟨tiles⟩) := by
  simp only [fromFen]
  rw [if_neg (fun h => h h8)]

theorem fromFen_valid_sum_ne (fen : List Char)
    (h8 : (splitOnChar '/' fen).length = 8)
    (hval : ∀ row ∈ splitOnChar '/' fen, ∀ c ∈ row, validChar c)
    (hsum : ((splitOnChar '/' fen).map rowSum).sum ≠ 64) :
    fromFen fen = some (Except.error FromFenError.IncorrectAmountOfTiles) := by
  obtain ⟨v, hv⟩ := processRows_total (splitOnChar '/' fen) 0 0
    (List.replicate 64 none) (by omega) (by simp)
  match v, hv with
  | Except.error e, hv =>
    cases e with
    | IncorrectAmountOfSlash => exact absurd hv (processRows_error_ne_slash _ _ _ _)
    | UnknownCharacter => exact absurd hv (processRows_valid_ne_unknown _ _ _ _ hval)
    | IncorrectAmountOfTiles => rw [fromFen_reduce fen h8, hv]
  | Except.ok (i, t), hv =>
    have hs := processRows_ok_sum _ _ _ _ _ _ hv
    have hi : i ≠ 64 := by omega
    rw [fromFen_reduce fen h8, hv]
    simp [hi]

/-- C2 (amended): for an input splitting into exactly 8 rows whose
characters are all digits or valid piece letters, if one row's square
count exceeds 8 while every other row's square count is exactly 8, then
from_fen fails with IncorrectAmountOfTiles. (As originally stated the
claim is false: an earlier under-full row can absorb the overflow and the
parse can succeed, and an invalid character can fail first with a
different error.) -/
theorem claim_c2_row_overflow (fen : List Char) (pre : List (List Char))
    (row : List Char) (post : List (List Char))
    (hsplit : splitOnChar '/' fen = pre ++ row :: post)
    (h8 : (pre ++ row :: post).length = 8)
    (hvalid : ∀ q ∈ pre ++ row :: post, ∀ c ∈ q, validChar c)
    (hover : rowSum row > 8)
    (hpre : ∀ q ∈ pre, rowSum q = 8)
    (hpost : ∀ q ∈ post, rowSum q = 8) :
    fromFen fen = some (Except.error FromFenError.IncorrectAmountOfTiles) := by
  apply fromFen_valid_sum_ne fen (by rw [hsplit]; exact h8)
    (by rw [hsplit]; exact hvalid)
  rw [hsplit]
  have hpres := sum_const_eight pre hpre
  have hposts := sum_const_eight post hpost
  have hlen : pre.length + post.length = 7 := by
    simp at h8
    omega
  simp [List.map_append, List.sum_append]
  omega

/-- C2 counterexample: the input "7/9/8/8/8/8/8/8" splits into exactly 8
rows and its second row has square count 9 > 8, yet from_fen succeeds
(yielding the all-empty board) instead of failing with
IncorrectAmountOfTiles: the under-full first row absorbs the overflow and
the per-character check never fires. -/
theorem claim_c2_counterexample :
    (splitOnChar '/' ("7/9/8/8/8/8/8/8".toList)).length = 8 ∧
    rowSum ((splitOnChar '/' ("7/9/8/8/8/8/8/8".toList)).getD 1 []) = 9 ∧
    fromFen ("7/9/8/8/8/8/8/8".toList)
      = some (Except.ok ⟨List.replicate 64 none⟩) := by decide

/-- C2 witness: the amended theorem applied to "8/8/8/8/8/8/8/9". -/
theorem claim_c2_witness :
    fromFen ("8/8/8/8/8/8/8/9".toList)
      = some (Except.error FromFenError.IncorrectAmountOfTiles) :=
  claim_c2_row_overflow _ [['8'], ['8'], ['8'], ['8'], ['8'], ['8'], ['8']]
    ['9'] [] (by decide) (by decide) (by decide) (by decide) (by decide)
    (by decide)

/-- C3 (amended): for an input splitting into exactly 8 rows, if some row
contains a character that the parser can consume neither as a digit nor as
a piece letter, then from_fen fails, with UnknownCharacter or with
IncorrectAmountOfTiles (the latter when the cursor has already reached the
current row's capacity before the offending character, since that check
runs first). As originally stated the claim is false: the error can be
IncorrectAmountOfTiles instead of UnknownCharacter; moreover '0' is
outside the claim's digit range '1'..'9' yet is consumed as a digit. -/
theorem claim_c3_unknown_character (fen : List Char)
    (h8 : (splitOnChar '/' fen).length = 8)
    (hbad : ∃ row ∈ splitOnChar '/' fen, ∃ c ∈ row, ¬ validChar c) :
    fromFen fen = some (Except.error FromFenError.UnknownCharacter) ∨
    fromFen fen = some (Except.error FromFenError.IncorrectAmountOfTiles) := by
  obtain ⟨v, hv⟩ := processRows_total (splitOnChar '/' fen) 0 0
    (List.replicate 64 none) (by omega) (by simp)
  match v, hv with
  | Except.error e, hv =>
    cases e with
    | IncorrectAmountOfSlash => exact absurd hv (processRows_error_ne_slash _ _ _ _)
    | UnknownCharacter => exact Or.inl (by rw [fromFen_reduce fen h8, hv])
    | IncorrectAmountOfTiles => exact Or.inr (by rw [fromFen_reduce fen h8, hv])
  | Except.ok (i, t), hv =>
    obtain ⟨row, hrow, c, hc, hnc⟩ := hbad
    exact absurd (processRows_ok_valid _ _ _ _ _ _ hv row hrow c hc) hnc

/-- C3 counterexample: "ppppppppx/8/8/8/8/8/8/8" splits into exactly 8
rows and its first row contains 'x', which is neither a digit in '1'..'9'
nor a piece letter; but from_fen fails with IncorrectAmountOfTiles, not
UnknownCharacter, because the row-full check runs before the character is
interpreted. -/
theorem claim_c3_counterexample :
    (splitOnChar '/' ("ppppppppx/8/8/8/8/8/8/8".toList)).length = 8 ∧
    'x' ∈ (splitOnChar '/' ("ppppppppx/8/8/8/8/8/8/8".toList)).getD 0 [] ∧
    ¬ ('1' ≤ 'x' ∧ 'x' ≤ '9') ∧ Piece.tryFrom 'x' = none ∧
    fromFen ("ppppppppx/8/8/8/8/8/8/8".toList)
      ≠ some (Except.error FromFenError.UnknownCharacter) ∧
    fromFen ("ppppppppx/8/8/8/8/8/8/8".toList)
      = some (Except.error FromFenError.IncorrectAmountOfTiles) := by decide

/-- C3 witness: the amended theorem applied to "x7/8/8/8/8/8/8/8". -/
theorem claim_c3_witness :
    fromFen ("x7/8/8/8/8/8/8/8".toList)
      = some (Except.error FromFenError.UnknownCharacter) ∨
    fromFen ("x7/8/8/8/8/8/8/8".toList)
      = some (Except.error FromFenError.IncorrectAmountOfTiles) :=
  claim_c3_unknown_character _ (by decide) (by decide)

/-- C4 (amended): when from_fen processes a '0' at a point where the
current row's capacity is not yet exhausted (cursor < row_index*8 + 8),
the character is parsed as the numeral 0, advances the cursor by zero,
writes no slot, raises no error, and the remainder is processed as if the
'0' were absent. (As originally stated the claim is false: when the cursor
has already reached the row's capacity, the overflow check fires at the
'0' and the parse fails, whereas it would succeed with the '0' absent.) -/
theorem claim_c4_zero_digit_noop (r : Nat) (rest : List Char) (i : Nat)
    (tiles : List (Option Piece)) (h : i < r * 8 + 8) :
    charToNat? '0' = some 0 ∧
    processChars r ('0' :: rest) i tiles = processChars r rest i tiles := by
  have h0 : charToNat? '0' = some 0 := by decide
  refine ⟨h0, ?_⟩
  simp only [processChars, h0]
  rw [if_neg (by omega), Nat.add_zero]

/-- C4 counterexample: "80/8/8/8/8/8/8/8" contains a '0' in its first row;
from_fen fails with IncorrectAmountOfTiles at that '0' (the row is already
full when it is reached), while the same input with the '0' absent
succeeds — so the '0' is not processed as a no-op there. -/
theorem claim_c4_counterexample :
    '0' ∈ "80/8/8/8/8/8/8/8".toList ∧
    fromFen ("80/8/8/8/8/8/8/8".toList)
      = some (Except.error FromFenError.IncorrectAmountOfTiles) ∧
    fromFen ("8/8/8/8/8/8/8/8".toList)
      = some (Except.ok ⟨List.replicate 64 none⟩) := by decide

/-- C4 witness: the amended theorem applied at row 0, cursor 5. -/
theorem claim_c4_witness :
    5 < 0 * 8 + 8 ∧
    (charToNat? '0' = some 0 ∧
      processChars 0 ('0' :: ['3']) 5 [] = processChars 0 ['3'] 5 []) :=
  ⟨by decide, claim_c4_zero_digit_noop 0 ['3'] 5 [] (by decide)⟩

/-- C6 (confirmed): from_fen fails with IncorrectAmountOfSlash exactly
when splitting the input on '/' yields a number of segments different
from 8; the backward direction holds for arbitrary segment contents, so no
characters are validated before this check. -/
theorem claim_c6_slash_iff (fen : List Char) :
    fromFen fen = some (Except.error FromFenError.IncorrectAmountOfSlash) ↔
    (splitOnChar '/' fen).length ≠ 8 := by
  constructor
  · intro h h8
    obtain ⟨v, hv⟩ := processRows_total (splitOnChar '/' fen) 0 0
      (List.replicate 64 none) (by omega) (by simp)
    match v, hv with
    | Except.error e, hv =>
      rw [fromFen_reduce fen h8, hv] at h
      simp at h
      rw [h] at hv
      exact processRows_error_ne_slash _ _ _ _ hv
    | Except.ok (i, t), hv =>
      rw [fromFen_reduce fen h8, hv] at h
      by_cases hi : i = 64
      · simp [hi] at h
      · simp [hi] at h
  · intro h8
    simp only [fromFen]
    rw [if_pos h8]

/-- C7 (confirmed): from_fen is total and never panics: for every input it
returns a value (the `none` result, which models a panicking out-of-bounds
write `tiles[i]` with `i ≥ 64` or any other panic, never occurs, because
the per-character check `i >= row_index*8 + 8` bounds every written index
by `row_index*8 + 8 ≤ 64`). -/
theorem claim_c7_never_panics (fen : List Char) :
    ∃ v, fromFen fen = some v := by
  by_cases h8 : (splitOnChar '/' fen).length = 8
  · obtain ⟨v, hv⟩ := processRows_total (splitOnChar '/' fen) 0 0
      (List.replicate 64 none) (by omega) (by simp)
    match v, hv with
    | Except.error e, hv =>
      exact ⟨Except.error e, by rw [fromFen_reduce fen h8, hv]⟩
    | Except.ok (i, t), hv =>
      by_cases hi : i = 64
      · exact ⟨Except.ok ⟨t⟩, by rw [fromFen_reduce fen h8, hv]; simp [hi]⟩
      · exact ⟨Except.error FromFenError.IncorrectAmountOfTiles,
          by rw [fromFen_reduce fen h8, hv]; simp [hi]⟩
  · exact ⟨Except.error FromFenError.IncorrectAmountOfSlash,
      by simp only [fromFen]; rw [if_pos h8]⟩

/-- C8 (confirmed): for coordinates in range on a 64-slot board, get_tile
reads slot y*8+x (so (0,0) and (7,7) address the first and last slots),
set_tile then get_tile at the same coordinates returns the piece just set,
remove_tile then get_tile returns empty, and set_tile/remove_tile leave
every other slot unchanged. -/
theorem claim_c8_tile_access (b : Board) (x y : Nat) (p : Piece)
    (hx : x ≤ 7) (hy : y ≤ 7) (hb : b.tiles.length = 64) :
    b.get_tile x y = some (b.tiles.getD (y * 8 + x) none) ∧
    b.get_tile 0 0 = some (b.tiles.getD 0 none) ∧
    b.get_tile 7 7 = some (b.tiles.getD 63 none) ∧
    (∃ b1, b.set_tile x y p = some b1 ∧
      b1.get_tile x y = some (some p) ∧
      ∀ j, j ≠ y * 8 + x → b1.tiles.getD j none = b.tiles.getD j none) ∧
    (∃ b2, b.remove_tile x y = some b2 ∧
      b2.get_tile x y = some none ∧
      ∀ j, j ≠ y * 8 + x → b2.tiles.getD j none = b.tiles.getD j none) := by
  have hcond : ¬(x > 7 ∨ y > 7) := by omega
  have hidx : y * 8 + x < b.tiles.length := by omega
  refine ⟨by simp [Board.get_tile, hcond], by simp [Board.get_tile],
    by simp [Board.get_tile],
    ⟨⟨b.tiles.set (y * 8 + x) (some p)⟩, by simp [Board.set_tile, hcond], ?_, ?_⟩,
    ⟨⟨b.tiles.set (y * 8 + x) none⟩, by simp [Board.remove_tile, hcond], ?_, ?_⟩⟩
  · simp only [Board.get_tile]
    rw [if_neg hcond, getD_set_self _ _ _ _ hidx]
  · intro j hj
    exact getD_set_ne _ _ _ _ _ (fun he => hj he.symm)
  · simp only [Board.get_tile]
    rw [if_neg hcond, getD_set_self _ _ _ _ hidx]
  · intro j hj
    exact getD_set_ne _ _ _ _ _ (fun he => hj he.symm)

/-- C8 witness: the theorem applied to the empty board at x = 3, y = 2
with a white queen. -/
theorem claim_c8_witness :
    (Board.mk (List.replicate 64 none)).get_tile 3 2
      = some ((Board.mk (List.replicate 64 none)).tiles.getD (2 * 8 + 3) none) ∧
    (Board.mk (List.replicate 64 none)).get_tile 0 0
      = some ((Board.mk (List.replicate 64 none)).tiles.getD 0 none) ∧
    (Board.mk (List.replicate 64 none)).get_tile 7 7
      = some ((Board.mk (List.replicate 64 none)).tiles.getD 63 none) ∧
    (∃ b1, (Board.mk (List.replicate 64 none)).set_tile 3 2 ⟨.Queen, .White⟩
        = some b1 ∧
      b1.get_tile 3 2 = some (some ⟨.Queen, .White⟩) ∧
      ∀ j, j ≠ 2 * 8 + 3 → b1.tiles.getD j none
        = (Board.mk (List.replicate 64 none)).tiles.getD j none) ∧
    (∃ b2, (Board.mk (List.replicate 64 none)).remove_tile 3 2 = some b2 ∧
      b2.get_tile 3 2 = some none ∧
      ∀ j, j ≠ 2 * 8 + 3 → b2.tiles.getD j none
        = (Board.mk (List.replicate 64 none)).tiles.getD j none) :=
  claim_c8_tile_access (Board.mk (List.replicate 64 none)) 3 2
    ⟨.Queen, .White⟩ (by decide) (by decide) (by decide)

/-- C9 (confirmed): calling get_tile, set_tile or remove_tile with x > 7
or y > 7 panics (the none result of the embedding), not a recoverable
typed error; and under the precondition x ≤ 7 and y ≤ 7 the fault branch
is not taken (each call returns a value) and the slot index y*8+x is
within the 64-slot array. -/
theorem claim_c9_coordinate_panic (b : Board) (x y : Nat) (p : Piece) :
    ((x > 7 ∨ y > 7) →
      b.get_tile x y = none ∧ b.set_tile x y p = none ∧
      b.remove_tile x y = none) ∧
    (x ≤ 7 → y ≤ 7 →
      b.get_tile x y = some (b.tiles.getD (y * 8 + x) none) ∧
      b.set_tile x y p = some ⟨b.tiles.set (y * 8 + x) (some p)⟩ ∧
      b.remove_tile x y = some ⟨b.tiles.set (y * 8 + x) none⟩ ∧
      y * 8 + x < 64) := by
  constructor
  · intro h
    exact ⟨by simp [Board.get_tile, h], by simp [Board.set_tile, h],
      by simp [Board.remove_tile, h]⟩
  · intro hx hy
    have hcond : ¬(x > 7 ∨ y > 7) := by omega
    exact ⟨by simp [Board.get_tile, hcond], by simp [Board.set_tile, hcond],
      by simp [Board.remove_tile, hcond], by omega⟩

/-- C9 witness: the theorem applied at the out-of-range coordinate x = 9
and at the in-range coordinate (7, 7) on the empty board. -/
theorem claim_c9_witness :
    ((Board.mk (List.replicate 64 none)).get_tile 9 0 = none ∧
      (Board.mk (List.replicate 64 none)).set_tile 9 0 ⟨.Pawn, .White⟩ = none ∧
      (Board.mk (List.replicate 64 none)).remove_tile 9 0 = none) ∧
    ((Board.mk (List.replicate 64 none)).get_tile 7 7
        = some ((Board.mk (List.replicate 64 none)).tiles.getD (7 * 8 + 7) none) ∧
      (Board.mk (List.replicate 64 none)).set_tile 7 7 ⟨.Pawn, .White⟩
        = some ⟨(Board.mk (List.replicate 64 none)).tiles.set (7 * 8 + 7)
            (some ⟨.Pawn, .White⟩)⟩ ∧
      (Board.mk (List.replicate 64 none)).remove_tile 7 7
        = some ⟨(Board.mk (List.replicate 64 none)).tiles.set (7 * 8 + 7) none⟩ ∧
      7 * 8 + 7 < 64) :=
  ⟨(claim_c9_coordinate_panic (Board.mk (List.replicate 64 none)) 9 0
      ⟨.Pawn, .White⟩).1 (by decide),
    (claim_c9_coordinate_panic (Board.mk (List.replicate 64 none)) 7 7
      ⟨.Pawn, .White⟩).2 (by decide) (by decide)⟩

theorem joinWith_eq_joinTail (sep : Char) : ∀ (x : List Char)
    (xs : List (List Char)), joinWith sep (x :: xs) = x ++ joinTail sep xs := by
  intro x xs
  induction xs generalizing x with
  | nil => simp [joinWith, joinTail]
  | cons y ys ih => simp [joinWith, joinTail, ih y]

theorem chunks8_cons {α : Type} (l : List α) (hl : l ≠ []) :
    chunks8 l = l.take 8 :: chunks8 (l.drop 8) := by
  cases l with
  | nil => exact absurd rfl hl
  | cons a t => rw [chunks8]

theorem dumpAux_append : ∀ (xs ys : List (Option Piece)) (i : Nat),
    dumpAux i (xs ++ ys) = dumpAux i xs ++ dumpAux (i + xs.length) ys := by
  intro xs
  induction xs with
  | nil => intro ys i; simp [dumpAux]
  | cons t ts ih =>
    intro ys i
    rw [List.cons_append]
    simp only [dumpAux]
    rw [ih ys (i + 1), List.length_cons,
      show i + (ts.length + 1) = i + 1 + ts.length from by omega]
    simp [List.append_assoc]

theorem dumpAux_inner : ∀ (xs : List (Option Piece)) (i : Nat),
    i % 8 ≠ 0 → xs.length + i % 8 ≤ 8 →
    dumpAux i xs = xs.map renderTile := by
  intro xs
  induction xs with
  | nil => intro i _ _; simp [dumpAux]
  | cons t ts ih =>
    intro i h0 hlen
    simp only [List.length_cons] at hlen
    simp only [dumpAux]
    rw [if_neg (fun hc => h0 hc.1), List.nil_append]
    by_cases h7 : i % 8 = 7
    · have hts : ts = [] := List.length_eq_zero.mp (by omega)
      subst hts
      simp [dumpAux]
    · rw [ih (i + 1) (by omega) (by omega)]
      simp

theorem dumpAux_row_zero (xs : List (Option Piece)) (h : xs.length ≤ 8) :
    dumpAux 0 xs = xs.map renderTile := by
  cases xs with
  | nil => simp [dumpAux]
  | cons t ts =>
    simp only [List.length_cons] at h
    simp only [dumpAux]
    rw [if_neg (by simp), List.nil_append]
    rw [dumpAux_inner ts 1 (by omega) (by omega)]
    simp

theorem dumpAux_row_succ (xs : List (Option Piece)) (m : Nat)
    (h8 : xs.length = 8) (hm : m ≠ 0) :
    dumpAux (8 * m) xs = '\n' :: xs.map renderTile := by
  cases xs with
  | nil => simp at h8
  | cons t ts =>
    simp only [List.length_cons] at h8
    simp only [dumpAux]
    rw [if_pos ⟨by omega, by omega⟩]
    rw [dumpAux_inner ts (8 * m + 1) (by omega) (by omega)]
    simp

theorem getD_take {α : Type} : ∀ (l : List α) (m k : Nat) (d : α),
    k < m → (l.take m).getD k d = l.getD k d := by
  intro l
  induction l with
  | nil => intro m k d _; simp
  | cons a t ih =>
    intro m k d hk
    cases m with
    | zero => omega
    | succ m' =>
      cases k with
      | zero => simp [List.take_succ_cons]
      | succ k' =>
        simp only [List.take_succ_cons, List.getD_cons_succ]
        exact ih m' k' d (by omega)

theorem getD_drop {α : Type} : ∀ (l : List α) (m k : Nat) (d : α),
    (l.drop m).getD k d = l.getD (m + k) d := by
  intro l
  induction l with
  | nil => intro m k d; simp
  | cons a t ih =>
    intro m k d
    cases m with
    | zero => simp
    | succ m' =>
      simp only [List.drop_succ_cons]
      rw [ih m' k d, show m' + 1 + k = (m' + k) + 1 from by omega,
        List.getD_cons_succ]

theorem chunks8_spec : ∀ (n : Nat) (l : List (Option Piece)),
    l.length = 8 * n →
    (chunks8 l).length = n ∧ (∀ r ∈ chunks8 l, r.length = 8) ∧
    (∀ q k (d : Option Piece), q < n → k < 8 →
      ((chunks8 l).getD q []).getD k d = l.getD (8 * q + k) d) := by
  intro n
  induction n with
  | zero =>
    intro l h
    have hl : l = [] := List.length_eq_zero.mp (by omega)
    subst hl
    exact ⟨by simp [chunks8], by simp [chunks8], by intro q k d hq hk; omega⟩
  | succ n ih =>
    intro l h
    have hne : l ≠ [] := by
      intro he
      subst he
      simp only [List.length_nil] at h
      omega
    rw [chunks8_cons l hne]
    have hlen : (l.drop 8).length = 8 * n := by
      rw [List.length_drop]
      omega
    obtain ⟨ih1, ih2, ih3⟩ := ih (l.drop 8) hlen
    refine ⟨by simp [ih1], ?_, ?_⟩
    · intro r hr
      rcases List.mem_cons.mp hr with h1 | h1
      · subst h1
        rw [List.length_take]
        omega
      · exact ih2 r h1
    · intro q k d hq hk
      cases q with
      | zero =>
        rw [List.getD_cons_zero, getD_take l 8 k d hk]
        norm_num
      | succ q' =>
        rw [List.getD_cons_succ, ih3 q' k d (by omega) hk, getD_drop l 8 _ d,
          show 8 + (8 * q' + k) = 8 * (q' + 1) + k from by omega]

theorem dumpAux_tail : ∀ (n : Nat) (l : List (Option Piece)) (m : Nat),
    l.length = 8 * n → m ≠ 0 →
    dumpAux (8 * m) l = joinTail '\n' ((chunks8 l).map (List.map renderTile)) := by
  intro n
  induction n with
  | zero =>
    intro l m h _
    have hl : l = [] := List.length_eq_zero.mp (by omega)
    subst hl
    simp [dumpAux, chunks8, joinTail]
  | succ n ih =>
    intro l m h hm
    have hne : l ≠ [] := by
      intro he
      subst he
      simp only [List.length_nil] at h
      omega
    rw [chunks8_cons l hne]
    have htl : (l.take 8).length = 8 := by
      rw [List.length_take]
      omega
    conv_lhs => rw [(List.take_append_drop 8 l).symm]
    rw [dumpAux_append, htl, dumpAux_row_succ _ m htl hm,
      show 8 * m + 8 = 8 * (m + 1) from by omega,
      ih (l.drop 8) (m + 1) (by rw [List.length_drop]; omega) (by omega)]
    simp [joinTail]

theorem dump_eq_joinWith (l : List (Option Piece)) (h : l.length = 64) :
    dumpAux 0 l = joinWith '\n' ((chunks8 l).map (List.map renderTile)) := by
  have hne : l ≠ [] := by
    intro he
    subst he
    simp at h
  rw [chunks8_cons l hne]
  have htl : (l.take 8).length = 8 := by
    rw [List.length_take]
    omega
  conv_lhs => rw [(List.take_append_drop 8 l).symm]
  rw [dumpAux_append, htl, dumpAux_row_zero _ (by omega),
    show (0 : Nat) + 8 = 8 * 1 from by omega,
    dumpAux_tail 7 (l.drop 8) 1 (by rw [List.length_drop]; omega) (by omega),
    List.map_cons, joinWith_eq_joinTail]

theorem splitOnChar_not_mem : ∀ (r : List Char) (sep : Char), sep ∉ r →
    splitOnChar sep r = [r] := by
  intro r sep
  induction r with
  | nil => intro _; rfl
  | cons c cs ih =>
    intro h
    have hc : ¬(c = sep) := fun he => h (by simp [he])
    have hcs := ih (fun hm => h (by simp [hm]))
    simp only [splitOnChar]
    rw [if_neg hc, hcs]

theorem splitOnChar_append : ∀ (r rest : List Char) (sep : Char), sep ∉ r →
    splitOnChar sep (r ++ sep :: rest) = r :: splitOnChar sep rest := by
  intro r
  induction r with
  | nil =>
    intro rest sep _
    simp [splitOnChar]
  | cons c cs ih =>
    intro rest sep h
    have hc : ¬(c = sep) := fun he => h (by simp [he])
    have hcs := ih rest sep (fun hm => h (by simp [hm]))
    rw [List.cons_append]
    simp only [splitOnChar]
    rw [if_neg hc, hcs]

theorem splitOnChar_joinWith : ∀ (rs : List (List Char)) (sep : Char),
    rs ≠ [] → (∀ r ∈ rs, sep ∉ r) →
    splitOnChar sep (joinWith sep rs) = rs := by
  intro rs
  induction rs with
  | nil => intro sep h _; exact absurd rfl h
  | cons r rs' ih =>
    intro sep _ hmem
    cases rs' with
    | nil =>
      show splitOnChar sep (joinWith sep [r]) = [r]
      rw [show joinWith sep [r] = r from rfl]
      exact splitOnChar_not_mem r sep (hmem r (by simp))
    | cons r2 rs'' =>
      show splitOnChar sep (joinWith sep (r :: r2 :: rs'')) = r :: r2 :: rs''
      rw [show joinWith sep (r :: r2 :: rs'') = r ++ sep :: joinWith sep (r2 :: rs'')
          from rfl,
        splitOnChar_append r _ sep (hmem r (by simp)),
        ih sep (by simp) (fun q hq => hmem q (by simp [hq]))]

theorem renderTile_ne_newline : ∀ t : Option Piece, renderTile t ≠ '\n' := by
  intro t
  cases t with
  | none => decide
  | some p =>
    obtain ⟨pt, pc⟩ := p
    cases pt <;> cases pc <;> decide

theorem dump_lines (l : List (Option Piece)) (h : l.length = 64) :
    splitOnChar '\n' (dumpAux 0 l) = (chunks8 l).map (List.map renderTile) := by
  rw [dump_eq_joinWith l h]
  apply splitOnChar_joinWith
  · intro he
    have h1 := (chunks8_spec 8 l (by omega)).1
    have := congrArg List.length he
    simp [h1] at this
  · intro r hr hnl
    obtain ⟨q, _, rfl⟩ := List.mem_map.mp hr
    obtain ⟨t, _, ht⟩ := List.mem_map.mp hnl
    exact renderTile_ne_newline t ht

/-- C10 (confirmed): for every 64-slot board, the textual dump is the 8
row-chunks of the tile list, each rendered slot-by-slot (piece character
if occupied, '-' otherwise), joined by single newlines with no trailing
newline; splitting the dump on newline yields exactly 8 lines of 8
characters each, in row-major slot order. -/
theorem claim_c10_dump_format (b : Board) (hb : b.tiles.length = 64) :
    b.dump = joinWith '\n' ((chunks8 b.tiles).map (List.map renderTile)) ∧
    splitOnChar '\n' b.dump = (chunks8 b.tiles).map (List.map renderTile) ∧
    (splitOnChar '\n' b.dump).length = 8 ∧
    (∀ line ∈ splitOnChar '\n' b.dump, line.length = 8) ∧
    (∀ q k, q < 8 → k < 8 →
      ((splitOnChar '\n' b.dump).getD q []).getD k '-'
        = renderTile (b.tiles.getD (8 * q + k) none)) := by
  obtain ⟨hc1, hc2, hc3⟩ := chunks8_spec 8 b.tiles (by omega)
  have ha : b.dump = joinWith '\n' ((chunks8 b.tiles).map (List.map renderTile)) :=
    dump_eq_joinWith b.tiles hb
  have hl : splitOnChar '\n' b.dump = (chunks8 b.tiles).map (List.map renderTile) :=
    dump_lines b.tiles hb
  refine ⟨ha, hl, by rw [hl]; simp [hc1], ?_, ?_⟩
  · intro line hline
    rw [hl] at hline
    obtain ⟨q, hq, rfl⟩ := List.mem_map.mp hline
    simp [hc2 q hq]
  · intro q k hq hk
    rw [hl]
    have hq8 : q < ((chunks8 b.tiles).map (List.map renderTile)).length := by
      simp [hc1]
      omega
    have hq8' : q < (chunks8 b.tiles).length := by
      rw [hc1]
      omega
    rw [List.getD_eq_getElem _ _ hq8, List.getElem_map]
    have hkch : k < ((chunks8 b.tiles)[q]).length := by
      rw [hc2 _ (List.getElem_mem hq8')]
      omega
    rw [List.getD_eq_getElem _ _ (show k < ((chunks8 b.tiles)[q].map renderTile).length
        from by simpa using hkch), List.getElem_map]
    have h1 : ((chunks8 b.tiles).getD q []).getD k none
        = b.tiles.getD (8 * q + k) none := hc3 q k none hq hk
    rw [List.getD_eq_getElem _ _ hq8'] at h1
    rw [List.getD_eq_getElem _ _ hkch] at h1
    rw [h1]

/-- C10 witness: the theorem applied to the all-empty 64-slot board. -/
theorem claim_c10_witness :
    (Board.mk (List.replicate 64 none)).dump
        = joinWith '\n' ((chunks8 (Board.mk (List.replicate 64 none)).tiles).map
            (List.map renderTile)) ∧
    splitOnChar '\n' (Board.mk (List.replicate 64 none)).dump
        = (chunks8 (Board.mk (List.replicate 64 none)).tiles).map
            (List.map renderTile) ∧
    (splitOnChar '\n' (Board.mk (List.replicate 64 none)).dump).length = 8 ∧
    (∀ line ∈ splitOnChar '\n' (Board.mk (List.replicate 64 none)).dump,
      line.length = 8) ∧
    (∀ q k, q < 8 → k < 8 →
      ((splitOnChar '\n' (Board.mk (List.replicate 64 none)).dump).getD q []).getD k '-'
        = renderTile ((Board.mk (List.replicate 64 none)).tiles.getD (8 * q + k) none)) :=
  claim_c10_dump_format (Board.mk (List.replicate 64 none)) (by decide)

theorem tryFrom_toChar (c : Char) (p : Piece) (h : Piece.tryFrom c = some p) :
    p.toChar = c := by
  have := List.find?_some h
  simpa using this

theorem tryFrom_digit_none (c : Char) (p : Piece)
    (h : Piece.tryFrom c = some p) : charToNat? c = none := by
  rw [(tryFrom_toChar c p h).symm]
  obtain ⟨pt, pc⟩ := p
  cases pt <;> cases pc <;> decide

theorem grammarChar_cases (c : Char) (h : grammarChar c) :
    (∃ n, 1 ≤ n ∧ n ≤ 9 ∧ charToNat? c = some n) ∨
    (charToNat? c = none ∧ ∃ p, Piece.tryFrom c = some p) := by
  rcases h with h | h
  · refine Or.inl ⟨c.toNat - 48, by omega, by omega, ?_⟩
    unfold charToNat?
    rw [if_pos ⟨by omega, by omega⟩]
  · obtain ⟨p, hp⟩ := Option.isSome_iff_exists.mp h
    exact Or.inr ⟨tryFrom_digit_none c p hp, p, hp⟩

theorem rowSum_cons (c : Char) (cs : List Char) :
    rowSum (c :: cs) = squares c + rowSum cs := by
  simp [rowSum]

theorem expandRow_length : ∀ cs : List Char,
    (expandRow cs).length = rowSum cs := by
  intro cs
  induction cs with
  | nil => rfl
  | cons c cs' ih =>
    rw [rowSum_cons]
    simp only [expandRow]
    cases hc : charToNat? c with
    | some n => simp [squares, hc, ih]
    | none =>
      simp [squares, hc, ih]
      omega

theorem expandRow_mem : ∀ cs : List Char, (∀ c ∈ cs, grammarChar c) →
    ∀ d ∈ expandRow cs, d = '-' ∨ ∃ p, Piece.tryFrom d = some p := by
  intro cs
  induction cs with
  | nil => intro _ d hd; simp [expandRow] at hd
  | cons a cs' ih =>
    intro hg d hd
    simp only [expandRow] at hd
    cases hc : charToNat? a with
    | some n =>
      rw [hc] at hd
      rcases List.mem_append.mp hd with h1 | h1
      · exact Or.inl (List.eq_of_mem_replicate h1)
      · exact ih (fun e he => hg e (by simp [he])) d h1
    | none =>
      rw [hc] at hd
      rcases List.mem_cons.mp hd with h1 | h1
      · rw [h1]
        rcases grammarChar_cases a (hg a (by simp)) with ⟨n, _, _, hcn⟩ | ⟨_, p, hp⟩
        · rw [hcn] at hc
          exact Option.noConfusion hc
        · exact Or.inr ⟨p, hp⟩
      · exact ih (fun e he => hg e (by simp [he])) d h1

theorem render_tryFrom (d : Char)
    (h : d = '-' ∨ ∃ p, Piece.tryFrom d = some p) :
    renderTile (Piece.tryFrom d) = d := by
  rcases h with h | ⟨p, hp⟩
  · subst h
    decide
  · rw [hp]
    simp only [renderTile]
    exact tryFrom_toChar d p hp

theorem processChars_grammar : ∀ (cs : List Char) (r s0 : Nat)
    (tiles : List (Option Piece)), r ≤ 7 → (∀ c ∈ cs, grammarChar c) →
    s0 + rowSum cs = 8 → tiles.length = 64 →
    (∀ k, s0 ≤ k → k < 8 → tiles.getD (8 * r + k) none = none) →
    ∃ t', processChars r cs (8 * r + s0) tiles
        = some (Except.ok (8 * r + 8, t')) ∧
      t'.length = 64 ∧
      (∀ k, k < rowSum cs →
        t'.getD (8 * r + s0 + k) none
          = Piece.tryFrom ((expandRow cs).getD k '-')) ∧
      (∀ j, j < 8 * r + s0 ∨ 8 * r + 8 ≤ j →
        t'.getD j none = tiles.getD j none) := by
  intro cs
  induction cs with
  | nil =>
    intro r s0 tiles hr hg hs hlen hnone
    have hs0 : s0 = 8 := by simpa [rowSum] using hs
    subst hs0
    refine ⟨tiles, by simp [processChars], hlen, ?_, fun j _ => rfl⟩
    intro k hk
    simp [rowSum] at hk
  | cons a cs' ih =>
    intro r s0 tiles hr hg hs hlen hnone
    rw [rowSum_cons] at hs
    rcases grammarChar_cases a (hg a (by simp)) with ⟨n, hn1, hn9, hcn⟩ | ⟨hcn, p, hp⟩
    · -- digit character: the cursor advances by n, no slot is written
      have hsq : squares a = n := by simp [squares, hcn]
      rw [hsq] at hs
      obtain ⟨t', ht', hlen', hvals', hframe'⟩ :=
        ih r (s0 + n) tiles hr (fun e he => hg e (by simp [he]))
          (by omega) hlen (fun k hk1 hk2 => hnone k (by omega) hk2)
      refine ⟨t', ?_, hlen', ?_, ?_⟩
      · simp only [processChars]
        rw [if_neg (by omega), hcn]
        show processChars r cs' (8 * r + s0 + n) tiles
          = some (Except.ok (8 * r + 8, t'))
        rw [show 8 * r + s0 + n = 8 * r + (s0 + n) from by omega]
        exact ht'
      · intro k hk
        rw [rowSum_cons, hsq] at hk
        simp only [expandRow]
        rw [hcn]
        by_cases hkn : k < n
        · rw [List.getD_append _ _ _ _ (by simp [List.length_replicate]; omega),
            getD_replicate n k '-' '-' hkn,
            show Piece.tryFrom '-' = none from by decide,
            hframe' _ (Or.inl (by omega)),
            show 8 * r + s0 + k = 8 * r + (s0 + k) from by omega]
          exact hnone (s0 + k) (by omega) (by omega)
        · rw [List.getD_append_right _ _ _ _ (by simp [List.length_replicate]; omega),
            List.length_replicate]
          have hv := hvals' (k - n) (by omega)
          rw [show 8 * r + (s0 + n) + (k - n) = 8 * r + s0 + k from by omega] at hv
          exact hv
      · intro j hj
        rcases hj with hj | hj
        · exact hframe' j (Or.inl (by omega))
        · exact hframe' j (Or.inr hj)
    · -- piece character: the piece is written at the cursor
      have hsq : squares a = 1 := by simp [squares, hcn]
      rw [hsq] at hs
      have hidx : 8 * r + s0 < tiles.length := by omega
      obtain ⟨t', ht', hlen', hvals', hframe'⟩ :=
        ih r (s0 + 1) (tiles.set (8 * r + s0) (some p)) hr
          (fun e he => hg e (by simp [he])) (by omega) (by simp [hlen])
          (by
            intro k hk1 hk2
            rw [getD_set_ne _ _ _ _ _ (by omega)]
            exact hnone k (by omega) hk2)
      refine ⟨t', ?_, hlen', ?_, ?_⟩
      · simp only [processChars]
        rw [if_neg (by omega), hcn, hp]
        show (if 8 * r + s0 < tiles.length then
            processChars r cs' (8 * r + s0 + 1) (tiles.set (8 * r + s0) (some p))
          else none) = some (Except.ok (8 * r + 8, t'))
        rw [if_pos hidx,
          show 8 * r + s0 + 1 = 8 * r + (s0 + 1) from by omega]
        exact ht'
      · intro k hk
        rw [rowSum_cons, hsq] at hk
        simp only [expandRow]
        rw [hcn]
        cases k with
        | zero =>
          rw [List.getD_cons_zero, Nat.add_zero,
            hframe' _ (Or.inl (by omega)),
            getD_set_self _ _ _ _ hidx]
          exact hp.symm
        | succ k' =>
          rw [List.getD_cons_succ]
          have hv := hvals' k' (by omega)
          rw [show 8 * r + (s0 + 1) + k' = 8 * r + s0 + (k' + 1) from by omega] at hv
          exact hv
      · intro j hj
        rcases hj with hj | hj
        · rw [hframe' j (Or.inl (by omega)), getD_set_ne _ _ _ _ _ (by omega)]
        · rw [hframe' j (Or.inr hj), getD_set_ne _ _ _ _ _ (by omega)]

theorem processRows_grammar : ∀ (rows : List (List Char)) (r : Nat)
    (tiles : List (Option Piece)), r + rows.length = 8 →
    (∀ q ∈ rows, (∀ c ∈ q, grammarChar c) ∧ rowSum q = 8) →
    tiles.length = 64 →
    (∀ j, 8 * r ≤ j → j < 64 → tiles.getD j none = none) →
    ∃ T, processRows r rows (8 * r) tiles = some (Except.ok (64, T)) ∧
      T.length = 64 ∧
      (∀ j, j < 8 * r → T.getD j none = tiles.getD j none) ∧
      (∀ q k, q < rows.length → k < 8 →
        T.getD (8 * (r + q) + k) none
          = Piece.tryFrom ((expandRow (rows.getD q [])).getD k '-')) := by
  intro rows
  induction rows with
  | nil =>
    intro r tiles hr _ hlen _
    have hr8 : r = 8 := by simpa using hr
    subst hr8
    refine ⟨tiles, by simp [processRows], hlen, fun j _ => rfl, ?_⟩
    intro q k hq hk
    simp at hq
  | cons row rest ih =>
    intro r tiles hr hrows hlen hnone
    have hr7 : r ≤ 7 := by
      simp only [List.length_cons] at hr
      omega
    obtain ⟨hgrow, hsrow⟩ := hrows row (by simp)
    obtain ⟨t', ht', hlen', hvals', hframe'⟩ :=
      processChars_grammar row r 0 tiles hr7 hgrow (by omega) hlen
        (fun k _ hk2 => hnone (8 * r + k) (by omega) (by omega))
    obtain ⟨T, hT, hTlen, hTframe, hTvals⟩ :=
      ih (r + 1) t' (by simp only [List.length_cons] at hr; omega)
        (fun q hq => hrows q (by simp [hq])) hlen'
        (by
          intro j hj1 hj2
          rw [hframe' j (Or.inr (by omega))]
          exact hnone j (by omega) hj2)
    refine ⟨T, ?_, hTlen, ?_, ?_⟩
    · simp only [processRows]
      rw [show 8 * r = 8 * r + 0 from rfl, ht']
      show processRows (r + 1) rest (8 * r + 8) t' = some (Except.ok (64, T))
      rw [show 8 * r + 8 = 8 * (r + 1) from by omega]
      exact hT
    · intro j hj
      rw [hTframe j (by omega), hframe' j (Or.inl (by omega))]
    · intro q k hq hk
      cases q with
      | zero =>
        rw [List.getD_cons_zero, hTframe (8 * (r + 0) + k) (by omega)]
        have hv := hvals' k (by rw [hsrow]; omega)
        rw [show 8 * r + 0 + k = 8 * (r + 0) + k from by omega] at hv
        exact hv
      | succ q' =>
        rw [List.getD_cons_succ]
        have hv := hTvals q' k (by simp only [List.length_cons] at hq; omega) hk
        rw [show 8 * (r + 1 + q') + k = 8 * (r + (q' + 1)) + k from by omega] at hv
        exact hv

theorem fromFen_grammar (fen : List Char)
    (h8 : (splitOnChar '/' fen).length = 8)
    (hrows : ∀ q ∈ splitOnChar '/' fen, (∀ c ∈ q, grammarChar c) ∧ rowSum q = 8) :
    ∃ B, fromFen fen = some (Except.ok B) ∧ B.tiles.length = 64 ∧
      ∀ q k, q < 8 → k < 8 →
        B.tiles.getD (8 * q + k) none
          = Piece.tryFrom ((expandRow ((splitOnChar '/' fen).getD q [])).getD k '-') := by
  obtain ⟨T, hT, hTlen, _, hTvals⟩ :=
    processRows_grammar (splitOnChar '/' fen) 0 (List.replicate 64 none)
      (by omega) hrows (by simp)
      (fun j _ hj => getD_replicate 64 j none none hj)
  refine ⟨⟨T⟩, ?_, hTlen, ?_⟩
  · rw [fromFen_reduce fen h8,
      show (0 : Nat) = 8 * 0 from rfl, hT]
    simp
  · intro q k hq hk
    have hv := hTvals q k (by omega) hk
    rw [show 8 * (0 + q) + k = 8 * q + k from by omega] at hv
    exact hv

theorem dump_lines_expand (fen : List Char)
    (h8 : (splitOnChar '/' fen).length = 8)
    (hrows : ∀ q ∈ splitOnChar '/' fen, (∀ c ∈ q, grammarChar c) ∧ rowSum q = 8)
    (B : Board) (hBlen : B.tiles.length = 64)
    (hBvals : ∀ q k, q < 8 → k < 8 →
      B.tiles.getD (8 * q + k) none
        = Piece.tryFrom ((expandRow ((splitOnChar '/' fen).getD q [])).getD k '-')) :
    splitOnChar '\n' B.dump = (splitOnChar '/' fen).map expandRow := by
  rw [show B.dump = dumpAux 0 B.tiles from rfl, dump_lines B.tiles hBlen]
  obtain ⟨hc1, hc2, hc3⟩ := chunks8_spec 8 B.tiles (by omega)
  apply List.ext_getElem
  · simp [hc1, h8]
  · intro q h1 h2
    rw [List.getElem_map, List.getElem_map]
    have hq8 : q < 8 := by
      simp only [List.length_map, hc1] at h1
      exact h1
    have hq8' : q < (chunks8 B.tiles).length := by omega
    have hql : q < (splitOnChar '/' fen).length := by omega
    have hchl : ((chunks8 B.tiles)[q]).length = 8 :=
      hc2 _ (List.getElem_mem hq8')
    have hrow := hrows ((splitOnChar '/' fen)[q]) (List.getElem_mem hql)
    have hexpl : (expandRow ((splitOnChar '/' fen)[q])).length = 8 := by
      rw [expandRow_length, hrow.2]
    apply List.ext_getElem
    · simp [hchl, hexpl]
    · intro k hk1 hk2
      rw [List.getElem_map]
      have hkc : k < ((chunks8 B.tiles)[q]).length := by simpa using hk1
      have hk8 : k < 8 := by omega
      have hkexp : k < (expandRow ((splitOnChar '/' fen)[q])).length := by omega
      have h3 := hc3 q k none hq8 hk8
      rw [List.getD_eq_getElem _ _ hq8'] at h3
      rw [List.getD_eq_getElem _ _ hkc] at h3
      have hgd : (splitOnChar '/' fen).getD q [] = (splitOnChar '/' fen)[q] :=
        List.getD_eq_getElem _ _ hql
      have h4 : (expandRow ((splitOnChar '/' fen)[q]))[k]
          = (expandRow ((splitOnChar '/' fen)[q])).getD k '-' :=
        (List.getD_eq_getElem _ _ hkexp).symm
      rw [h3, hBvals q k hq8 hk8, hgd, h4]
      apply render_tryFrom
      apply expandRow_mem _ hrow.1
      rw [List.getD_eq_getElem _ _ hkexp]
      exact List.getElem_mem hkexp

/-- C5 (amended): for every input that splits into exactly 8 rows, each
row consisting of digits '1'..'9' and valid piece letters and summing to
exactly 8 squares, from_fen succeeds, the dump's lines are exactly the
rows' square-by-square expansions, and run-length-compressing each dump
line and joining with '/' reproduces the run-length-normalized original
board field. (As originally stated — for every input on which from_fen
succeeds — the claim is false: inputs whose rows do not each sum to 8 can
still parse, and their dump does not reproduce the original.) -/
theorem claim_c5_round_trip (fen : List Char)
    (h8 : (splitOnChar '/' fen).length = 8)
    (hrows : ∀ q ∈ splitOnChar '/' fen, (∀ c ∈ q, grammarChar c) ∧ rowSum q = 8) :
    ∃ b, fromFen fen = some (Except.ok b) ∧
      splitOnChar '\n' b.dump = (splitOnChar '/' fen).map expandRow ∧
      joinWith '/' ((splitOnChar '\n' b.dump).map rle)
        = joinWith '/' ((splitOnChar '/' fen).map (fun q => rle (expandRow q))) := by
  obtain ⟨B, hB, hBlen, hBvals⟩ := fromFen_grammar fen h8 hrows
  have hkey : splitOnChar '\n' B.dump = (splitOnChar '/' fen).map expandRow :=
    dump_lines_expand fen h8 hrows B hBlen hBvals
  refine ⟨B, hB, hkey, ?_⟩
  rw [hkey, List.map_map]
  rfl

/-- C5 counterexample: from_fen succeeds on "7/9/8/8/8/8/8/8" (yielding
the all-empty board), but run-length-compressing the dump and joining
with '/' gives "8/8/8/8/8/8/8/8", not the normalized original
"7/9/8/8/8/8/8/8" — the round-trip fails on this accepted input. -/
theorem claim_c5_counterexample :
    fromFen ("7/9/8/8/8/8/8/8".toList)
      = some (Except.ok ⟨List.replicate 64 none⟩) ∧
    joinWith '/' ((splitOnChar '\n' (Board.dump ⟨List.replicate 64 none⟩)).map rle)
      ≠ joinWith '/' ((splitOnChar '/' ("7/9/8/8/8/8/8/8".toList)).map
          (fun q => rle (expandRow q))) := by decide

/-- C5 witness: the amended theorem applied to the standard initial
position string. -/
theorem claim_c5_witness :
    ∃ b, fromFen ("rnbqkbnr/pppppppp/8/8/8/8/PPPPPPPP/RNBQKBNR".toList)
        = some (Except.ok b) ∧
      splitOnChar '\n' b.dump
        = (splitOnChar '/' ("rnbqkbnr/pppppppp/8/8/8/8/PPPPPPPP/RNBQKBNR".toList)).map
            expandRow ∧
      joinWith '/' ((splitOnChar '\n' b.dump).map rle)
        = joinWith '/'
            ((splitOnChar '/' ("rnbqkbnr/pppppppp/8/8/8/8/PPPPPPPP/RNBQKBNR".toList)).map
              (fun q => rle (expandRow q))) :=
  claim_c5_round_trip _ (by decide) (by decide)

/-- C1 (confirmed): parsing the standard initial position succeeds and
yields a board whose slot 0 holds a black rook, slot 7 a black rook,
slots 8..15 black pawns, slots 16..47 empty, slots 48..55 white pawns and
slots 56 and 63 white rooks; the opaque Piece conversion is modelled from
the spec as the standard FEN letter-to-piece mapping (lowercase = Black),
which discharges the claim's hypothesis on it. -/
theorem claim_c1_initial_position :
    ∃ b, fromFen ("rnbqkbnr/pppppppp/8/8/8/8/PPPPPPPP/RNBQKBNR".toList)
        = some (Except.ok b) ∧
      b.tiles.getD 0 none = some ⟨.Rook, .Black⟩ ∧
      b.tiles.getD 7 none = some ⟨.Rook, .Black⟩ ∧
      (∀ k ∈ List.range 64, 8 ≤ k → k ≤ 15 →
        b.tiles.getD k none = some ⟨.Pawn, .Black⟩) ∧
      (∀ k ∈ List.range 64, 16 ≤ k → k ≤ 47 → b.tiles.getD k none = none) ∧
      (∀ k ∈ List.range 64, 48 ≤ k → k ≤ 55 →
        b.tiles.getD k none = some ⟨.Pawn, .White⟩) ∧
      b.tiles.getD 56 none = some ⟨.Rook, .White⟩ ∧
      b.tiles.getD 63 none = some ⟨.Rook, .White⟩ :=
  ⟨_, rfl, by decide⟩

example : fromFen ("8/8/8/8/8/8/8/8".toList)
    = some (Except.ok ⟨List.replicate 64 none⟩) := by decide

example : fromFen ("7/9/8/8/8/8/8/8".toList)
    = some (Except.ok ⟨List.replicate 64 none⟩) := by decide

example : fromFen ("x".toList)
    = some (Except.error FromFenError.IncorrectAmountOfSlash) := by decide

example : fromFen ("ppppppppx/8/8/8/8/8/8/8".toList)
    = some (Except.error FromFenError.IncorrectAmountOfTiles) := by decide

example : fromFen ("x7/8/8/8/8/8/8/8".toList)
    = some (Except.error FromFenError.UnknownCharacter) := by decide

example : fromFen ("80/8/8/8/8/8/8/8".toList)
    = some (Except.error FromFenError.IncorrectAmountOfTiles) := by decide
